import Mathlib

/-!
Shallow embedding of the record-recovery pipeline of the zub_berciunai
repository (Next.js API handlers that parse agricultural spreadsheet and
PDF reports).  Cells coming from `sheet_to_json(ws, {header:1, raw:false,
defval:null})` are either a string or null, so a cell is modelled as
`Option String`.  JS strings are modelled as Lean `String` / `List Char`;
JS numbers (where a parse result matters) as `ℚ`, with `Option ℚ` for
NaN.  Whitespace uses `Char.isWhitespace` (space, tab, CR, LF), matching
the characters relevant to these documents.
-/

abbrev Cell := Option String

/-- `String(v ?? "")`: a null cell prints as the empty string. -/
def cellStr (c : Cell) : String := c.getD ""

/-- The numeric value of a digit character, `c.toNat - 48` as in JS char math. -/
def charVal (c : Char) : ℕ := c.toNat - 48

/-- Decimal digit characters (used when rendering `${n}` template literals). -/
def digitChar : ℕ → Char
  | 0 => '0' | 1 => '1' | 2 => '2' | 3 => '3' | 4 => '4'
  | 5 => '5' | 6 => '6' | 7 => '7' | 8 => '8' | _ => '9'

/-- Value of a digit string read left to right (base 10). -/
def valCh (l : List Char) : ℕ := l.foldl (fun a c => 10 * a + charVal c) 0

/-- Decimal rendering of a natural number, fuel-based so it is structural. -/
def natCharsAux : ℕ → ℕ → List Char → List Char
  | 0, n, acc => digitChar n :: acc
  | fuel + 1, n, acc =>
      if n < 10 then digitChar n :: acc
      else natCharsAux fuel (n / 10) (digitChar (n % 10) :: acc)

/-- The decimal digits of `n`, as produced by JS `String(n)` for naturals. -/
def natToChars (n : ℕ) : List Char := natCharsAux n n []

/-- `String(n)` for a natural number. -/
def natStr (n : ℕ) : String := ⟨natToChars n⟩

/-- JS `String.prototype.trim()`: drop leading and trailing whitespace. -/
def trimChars (l : List Char) : List Char :=
  ((l.dropWhile Char.isWhitespace).reverse.dropWhile Char.isWhitespace).reverse

/-- JS `s.trim()` on strings. -/
def jsTrim (s : String) : String := ⟨trimChars s.data⟩

/-- `normHdr` of ingest-gea.js / the unnamed GEA handler: `String(s ?? '').trim()`. -/
def normHdr (s : String) : String := jsTrim s

/-- JS `s.toLowerCase()` (ASCII range; the markers and probe literals compared
against are ASCII). -/
def jsToLower (s : String) : String := ⟨s.data.map Char.toLower⟩

/-- `${base}_${idx}`: a header name with an occurrence-count suffix. -/
def suffixName (b : String) (k : ℕ) : String := ⟨b.data ++ '_' :: natToChars k⟩

/-! ## Number normalizer `num` (src/api/extractinvoice.js lines 16-26) -/

/-- `String(s).replace(/\s/g, "")`. -/
def stripWs (l : List Char) : List Char := l.filter (fun c => ¬ c.isWhitespace)

/-- `.replace(/[^0-9,.\-]/g, "")`: keep digits, comma, dot, minus. -/
def keepNumChars (l : List Char) : List Char :=
  l.filter (fun c => c.isDigit ∨ c = ',' ∨ c = '.' ∨ c = '-')

/-- The lookahead `(?=\d{3}([.,]|$))`: three digits then a separator or the end. -/
def threeDigitsThenSep : List Char → Bool
  | a :: b :: c :: rest =>
      a.isDigit && b.isDigit && c.isDigit &&
        (match rest with
         | [] => true
         | d :: _ => d = '.' || d = ',')
  | _ => false

/-- `.replace(/(\d)\.(?=\d{3}([.,]|$))/g, "$1")`: drop a dot between a digit and a
three-digit group that ends at a separator or at the end of the string.  The
scan mirrors the regex engine: a successful match consumes the digit and the
dot and resumes at the lookahead position. -/
def stripThousandDots : List Char → List Char
  | [] => []
  | [c] => [c]
  | c :: '.' :: rest =>
      if c.isDigit ∧ threeDigitsThenSep rest
      then c :: stripThousandDots rest
      else c :: stripThousandDots ('.' :: rest)
  | c :: d :: rest => c :: stripThousandDots (d :: rest)

/-- `.replace(",", ".")`: only the first comma is replaced. -/
def replaceFirstComma : List Char → List Char
  | [] => []
  | c :: rest => if c = ',' then '.' :: rest else c :: replaceFirstComma rest

/-- The string cleanup of `num` before `Number()` is applied. -/
def numCore (l : List Char) : List Char :=
  let t := stripThousandDots (keepNumChars (stripWs l))
  if t.contains ',' ∧ t.contains '.' then
    replaceFirstComma (t.filter (fun c => c ≠ '.'))
  else replaceFirstComma t

/-- Exact decimal value `a / b` scaled by the exponent `e` (`b` stays a power
of ten); all arithmetic in ℕ so that concrete runs reduce in the kernel. -/
def applyExp (a b : ℕ) (e : ℤ) : ℕ × ℕ :=
  if 0 ≤ e then (a * 10 ^ e.toNat, b) else (a, b * 10 ^ (-e).toNat)

/-- A signed decimal integer (the digits after `e`/`E` in a JS number literal). -/
def parseSignedInt : List Char → Option ℤ
  | '-' :: rest => if rest ≠ [] ∧ rest.all Char.isDigit then some (-(valCh rest : ℤ)) else none
  | '+' :: rest => if rest ≠ [] ∧ rest.all Char.isDigit then some (valCh rest : ℤ) else none
  | rest => if rest ≠ [] ∧ rest.all Char.isDigit then some (valCh rest : ℤ) else none

/-- Optional exponent part of a JS decimal literal (empty means exponent 0). -/
def parseExpPart : List Char → Option ℤ
  | [] => some 0
  | 'e' :: rest => parseSignedInt rest
  | 'E' :: rest => parseSignedInt rest
  | _ => none

/-- Unsigned JS decimal literal: `digits[.digits][exp]`, `.digits[exp]` or
`digits.[exp]`; at least one digit overall.  The value is returned as an exact
numerator/denominator pair (denominator a power of ten). -/
def parseDecCore (l : List Char) : Option (ℕ × ℕ) :=
  let ip := l.takeWhile Char.isDigit
  let r1 := l.dropWhile Char.isDigit
  match r1 with
  | '.' :: r2 =>
      let fp := r2.takeWhile Char.isDigit
      let r3 := r2.dropWhile Char.isDigit
      if ip = [] ∧ fp = [] then none
      else (parseExpPart r3).map
        (fun e => applyExp (valCh ip * 10 ^ fp.length + valCh fp) (10 ^ fp.length) e)
  | _ => if ip = [] then none else (parseExpPart r1).map (fun e => applyExp (valCh ip) 1 e)

/-- The `Infinity` spellings accepted by JS `Number()` (finite-value parse fails,
but `isNaN` is false on them). -/
def isInfinityLit (l : List Char) : Bool :=
  let t := trimChars l
  t = "Infinity".data || t = "-Infinity".data || t = "+Infinity".data

/-- JS `Number(str)` restricted to finite results: `none` for NaN and ±Infinity;
`some (sign, a, b)` encodes the exact value `±(a / b)`.  Handles whitespace
trimming, the empty string (0), an optional sign and decimal/exponent
literals.  (Hex/octal/binary literals cannot arise from the call sites
modelled here, whose inputs are cell texts filtered or probed as decimal
data.) -/
def jsNumberParse (l0 : List Char) : Option (Bool × ℕ × ℕ) :=
  let l := trimChars l0
  match l with
  | [] => some (false, 0, 1)
  | '-' :: rest => (parseDecCore rest).map (fun p => (true, p))
  | '+' :: rest => (parseDecCore rest).map (fun p => (false, p))
  | _ => (parseDecCore l).map (fun p => (false, p))

/-- Interpret a parsed JS number as a rational. -/
def jsVal (p : Bool × ℕ × ℕ) : ℚ :=
  if p.1 then -((p.2.1 : ℚ) / (p.2.2 : ℚ)) else (p.2.1 : ℚ) / (p.2.2 : ℚ)

/-- The representation-level result of `num` of src/api/extractinvoice.js. -/
def numParts (s : String) : Option (Bool × ℕ × ℕ) := jsNumberParse (numCore s.data)

/-- `num` of src/api/extractinvoice.js: EU-style number normalizer.
`null` input is excluded by taking a `String`; the result is `none` exactly
when `Number.isFinite` fails on the cleaned text. -/
def num (s : String) : Option ℚ := (numParts s).map jsVal

/-! ## AT2 schema probe (src/api/extract-automatic-file.js lines 10-115, 211-237) -/

def AT1_COLS : List String :=
  ["cow_number", "ear_number", "cow_state", "group_number", "pregnant_since",
   "lactation_days", "inseminated_at", "pregnant_days", "next_pregnancy_date",
   "days_until_waiting_pregnancy"]

def AT2_COLS_NO_D : List String :=
  ["cow_number", "genetic_worth", "blood_line", "avg_milk_prod_weight",
   "produce_milk", "last_milking_date", "last_milking_time", "last_milking_weight",
   "milking_date_1", "milking_time_1", "milking_weight_1",
   "milking_date_2", "milking_time_2", "milking_weight_2",
   "milking_date_3", "milking_time_3", "milking_weight_3",
   "milking_date_4", "milking_time_4", "milking_weight_4",
   "milking_date_5", "milking_time_5", "milking_weight_5",
   "milking_date_6", "milking_time_6", "milking_weight_6",
   "milking_date_7", "milking_time_7", "milking_weight_7",
   "milking_date_8", "milking_time_8", "milking_weight_8",
   "milking_date_9", "milking_time_9", "milking_weight_9"]

def AT2_COLS_WITH_D : List String :=
  ["cow_number", "genetic_worth", "blood_line", "unused_d", "avg_milk_prod_weight",
   "produce_milk", "last_milking_date", "last_milking_time", "last_milking_weight",
   "milking_date_1", "milking_time_1", "milking_weight_1",
   "milking_date_2", "milking_time_2", "milking_weight_2",
   "milking_date_3", "milking_time_3", "milking_weight_3",
   "milking_date_4", "milking_time_4", "milking_weight_4",
   "milking_date_5", "milking_time_5", "milking_weight_5",
   "milking_date_6", "milking_time_6", "milking_weight_6",
   "milking_date_7", "milking_time_7", "milking_weight_7",
   "milking_date_8", "milking_time_8", "milking_weight_8",
   "milking_date_9", "milking_time_9", "milking_weight_9"]

def AT3_COLS : List String :=
  ["cow_number", "teat_missing_right_back", "teat_missing_back_left",
   "teat_missing_front_left", "teat_missing_front_right", "insemination_count",
   "bull_1", "bull_2", "bull_3", "lactation_number"]

/-- `v === "taip" || v === "ne"` after lowercasing. -/
def looksBoolLT (s : String) : Bool :=
  jsToLower s = "taip" || jsToLower s = "ne"

/-- `/^\d{1,2}\/\d{1,2}\/\d{2,4}$/` (the separators are not digits, so the
greedy digit runs coincide with the regex). -/
def slashDateShape (l : List Char) : Bool :=
  let d1 := l.takeWhile Char.isDigit
  match l.dropWhile Char.isDigit with
  | '/' :: r2 =>
      let d2 := r2.takeWhile Char.isDigit
      (match r2.dropWhile Char.isDigit with
       | '/' :: r4 =>
           let d3 := r4.takeWhile Char.isDigit
           decide (1 ≤ d1.length ∧ d1.length ≤ 2 ∧ 1 ≤ d2.length ∧ d2.length ≤ 2 ∧
             2 ≤ d3.length ∧ d3.length ≤ 4) && (r4.dropWhile Char.isDigit).isEmpty
       | _ => false)
  | _ => false

/-- `/^\d{4}-\d{2}-\d{2}$/`. -/
def isoDashShape : List Char → Bool
  | [a, b, c, d, '-', e, f, '-', g, h] => [a, b, c, d, e, f, g, h].all Char.isDigit
  | _ => false

/-- `/^\d{1,2}\.\d{1,2}\.\d{4}$/`. -/
def dotDateShape (l : List Char) : Bool :=
  let d1 := l.takeWhile Char.isDigit
  match l.dropWhile Char.isDigit with
  | '.' :: r2 =>
      let d2 := r2.takeWhile Char.isDigit
      (match r2.dropWhile Char.isDigit with
       | '.' :: r4 =>
           let d3 := r4.takeWhile Char.isDigit
           decide (1 ≤ d1.length ∧ d1.length ≤ 2 ∧ 1 ≤ d2.length ∧ d2.length ≤ 2 ∧
             d3.length = 4) && (r4.dropWhile Char.isDigit).isEmpty
       | _ => false)
  | _ => false

/-- `looksDate` of the AT2 probe. -/
def looksDate (s : String) : Bool :=
  slashDateShape s.data || isoDashShape s.data || dotDateShape s.data

/-- `/^\d{1,2}:\d{2}$/`. -/
def looksTime (s : String) : Bool :=
  let l := s.data
  let d1 := l.takeWhile Char.isDigit
  match l.dropWhile Char.isDigit with
  | ':' :: r2 => decide (1 ≤ d1.length ∧ d1.length ≤ 2) &&
      r2.all Char.isDigit && decide (r2.length = 2)
  | _ => false

/-- `s !== "" && !isNaN(Number(String(s).replace(",", ".")))`. -/
def looksNumber (s : String) : Bool :=
  s ≠ "" && ((jsNumberParse (replaceFirstComma s.data)).isSome ||
    isInfinityLit (replaceFirstComma s.data))

/-- `cell(i)`: `String(first[i] ?? "").trim()`. -/
def cellAt (row : List Cell) (i : ℕ) : String := jsTrim (cellStr (row.getD i none))

/-- The predicate of `sec2.find(...)`: some cell has non-blank text. -/
def rowNonEmpty (r : List Cell) : Bool := r.any (fun v => jsTrim (cellStr v) ≠ "")

/-- The WITH_D shape probe on the first non-empty data row. -/
def probeAt2 (first : List Cell) : Bool :=
  (cellAt first 3 = "" || jsToLower (cellAt first 3) = "null") &&
  looksNumber (cellAt first 4) &&
  looksBoolLT (cellAt first 5) &&
  looksDate (cellAt first 6) &&
  looksTime (cellAt first 7)

/-- `pickAt2Schema` of src/api/extract-automatic-file.js. -/
def pickAt2Schema (sec2 : List (List Cell)) : List String :=
  match sec2.find? rowNonEmpty with
  | none => AT2_COLS_WITH_D
  | some first => if probeAt2 first then AT2_COLS_WITH_D else AT2_COLS_NO_D

/-! ## Record building (src/api/extract-automatic-file.js `mapRowsToObjects`,
src/api/ingest-gea.js handler).  A JS object is an insertion-ordered key/value
list: assigning an existing key overwrites in place, a new key appends. -/

/-- A Record: field name to cell value, in JS object key order. -/
abbrev Obj := List (String × Cell)

/-- `obj[k] = v` on a JS object. -/
def objInsert (o : Obj) (k : String) (v : Cell) : Obj :=
  if o.any (fun p => p.1 = k) then o.map (fun p => if p.1 = k then (k, v) else p)
  else o ++ [(k, v)]

/-- `const obj = {}; for i < width: obj[cols[i]] = vals[i]` (the two lists are
zipped; the caller aligns `vals` to `cols.length` first). -/
def buildObj (cols : List String) (vals : List Cell) : Obj :=
  (cols.zip vals).foldl (fun o p => objInsert o p.1 p.2) []

/-- `Object.keys`. -/
def recKeys (o : Obj) : List String := o.map Prod.fst

/-- `row = r.slice(0, width); while (row.length < width) row.push(null)`. -/
def sliceAndPad (width : ℕ) (r : List Cell) : List Cell :=
  r.take width ++ List.replicate (width - (r.take width).length) none

/-- `mapRowsToObjects` of src/api/extract-automatic-file.js. -/
def mapRowsToObjects (rows : List (List Cell)) (cols : List String) : List Obj :=
  rows.map (fun r => buildObj cols (sliceAndPad cols.length r))

/-- `alignRow` of src/api/ingest-gea.js: pad with nulls to `len`, then truncate
to `len`. -/
def alignRow (row : List Cell) (len : ℕ) : List Cell :=
  let r := if row.length < len then row ++ List.replicate (len - row.length) none else row
  if len < r.length then r.take len else r

/-- First occurrences of a key list, the order JS object keys end up in when a
column list with repeats is assigned left to right (`seen` are keys already
present). -/
def newKeys (seen : List String) : List String → List String
  | [] => []
  | k :: rest => if k ∈ seen then newKeys seen rest else k :: newKeys (k :: seen) rest

/-- The hard-coded GEA fallback header list (src/api/ingest-gea.js lines 22-30);
note the repeated milking-column names. -/
def BUILTIN_FALLBACK : List String :=
  ["karves nr", "kaklo nr", "statusas", "grupe", "pieno vidurkis",
   "melzimo data", "melzimo laikas", "pieno kiekis",
   "melzimo data", "melzimo laikas", "pieno kiekis",
   "melzimo data", "melzimo laikas", "pieno kiekis",
   "melzimo data", "melzimo laikas", "pieno kiekis",
   "melzimo data", "melzimo laikas", "pieno kiekis",
   "dalyvauja pieno gamyboje", "apsiversiavo", "laktacijos dienos",
   "apseklinimo diena"]

/-! ## Header de-duplication (src/unnamed/part_000 `dedupeHeaders`, lines 57-66) -/

/-- `const base = normHdr(h) || 'Col'`. -/
def baseOf (h : String) : String := if normHdr h = "" then "Col" else normHdr h

/-- The `seen` counter object is a total map with 0 for absent (the JS code
tests `!seen[base]`, and a stored count is never 0). -/
def dedupeHeadersAux (seen : String → ℕ) : List String → List String
  | [] => []
  | h :: rest =>
      let base := baseOf h
      if seen base = 0 then
        base :: dedupeHeadersAux (fun x => if x = base then 1 else seen x) rest
      else
        suffixName base (seen base + 1) ::
          dedupeHeadersAux (fun x => if x = base then seen base + 1 else seen x) rest

/-- `dedupeHeaders` of src/unnamed/part_000. -/
def dedupeHeaders (hs : List String) : List String := dedupeHeadersAux (fun _ => 0) hs

/-- Occurrences of `b` in the prefix already processed. -/
def countEq (pre : List String) (b : String) : ℕ := (pre.filter (fun x => x = b)).length

/-- Spec-shaped description of the disambiguation: the first occurrence of a
base keeps the bare name, the k-th occurrence (k ≥ 2) gets `base_k`. -/
def dedupePos (pre : List String) : List String → List String
  | [] => []
  | b :: rest =>
      (if countEq pre b = 0 then b else suffixName b (countEq pre b + 1)) ::
        dedupePos (pre ++ [b]) rest

/-- Shape of a name emitted by the disambiguation with counters `seen`: either
a bare base not seen before, or a base with a suffix `_k`, `k ≥ 2`, larger
than the count already recorded. -/
def outShape (seen : String → ℕ) (b out : String) : Prop :=
  (out = b ∧ seen b = 0) ∨ ∃ k, 2 ≤ k ∧ seen b < k ∧ out = suffixName b k

/-! ## Schema fallback chain (src/unnamed/part_000 handler, lines 200-222) -/

/-- `loadSnapshotHeaders()`: the persisted snapshot, if present and non-empty,
with each name normalized. -/
def loadSnap (store : Option (List String)) : Option (List String) :=
  match store with
  | some arr => if arr ≠ [] then some (arr.map normHdr) else none
  | none => none

/-- `Col_${i+1}`. -/
def colName (k : ℕ) : String := ⟨'C' :: 'o' :: 'l' :: '_' :: natToChars k⟩

/-- `Math.max(...rows.map(r => r.length))` over the observed grid (0 when the
grid is empty, matching the length coercion of `Array.from`). -/
def maxRowLen (rows : List (List Cell)) : ℕ := (rows.map List.length).foldr max 0

/-- Synthetic headers `Col_1 .. Col_N` sized to the longest row. -/
def syntheticHeaders (rows : List (List Cell)) : List String :=
  (List.range (maxRowLen rows)).map (fun i => colName (i + 1))

/-- The headerless-document schema resolution of the part_000 handler:
snapshot, else env fallback, else built-in default (pre-deduplicated), else
synthetic names; the chosen list is deduplicated once more. -/
def resolveHeaders (store : Option (List String)) (env builtin : List String)
    (rows : List (List Cell)) : List String :=
  let h0 : Option (List String) :=
    match loadSnap store with
    | some h => some h
    | none =>
        if env ≠ [] then some (env.map normHdr)
        else if builtin ≠ [] then some (dedupeHeaders builtin)
        else none
  match h0 with
  | some h => dedupeHeaders h
  | none => dedupeHeaders (syntheticHeaders rows)

/-! ## Header detection and snapshot write (src/api/ingest-gea.js
lines 57-72 and 148-189) -/

/-- ASCII letter test for the `[A-Z]{2}` part of the tag regex (`i` flag). -/
def isAsciiLetter (c : Char) : Bool :=
  ('A' ≤ c && c ≤ 'Z') || ('a' ≤ c && c ≤ 'z')

/-- `/^([A-Z]{2}\d{6,}|LT\d+|DE\d+)/i`, an anchored prefix match. -/
def tagShape : List Char → Bool
  | a :: b :: rest =>
      (isAsciiLetter a && isAsciiLetter b && decide (6 ≤ (rest.takeWhile Char.isDigit).length)) ||
      ((a = 'L' || a = 'l') && (b = 'T' || b = 't') &&
        decide (1 ≤ (rest.takeWhile Char.isDigit).length)) ||
      ((a = 'D' || a = 'd') && (b = 'E' || b = 'e') &&
        decide (1 ≤ (rest.takeWhile Char.isDigit).length))
  | _ => false

/-- `looksLikeTag` of src/api/ingest-gea.js. -/
def looksLikeTag (s : String) : Bool :=
  let v := jsTrim s
  v ≠ "" && tagShape v.data

/-- `detectHasHeader` of src/api/ingest-gea.js: no tag-shaped first cell, and
at least half of the non-null cells contain a non-digit character.  (With
`raw:false`, every non-null cell is a string, so the `typeof` test holds.) -/
def detectHasHeader (firstRow : List Cell) : Bool :=
  match firstRow with
  | [] => false
  | c0 :: _ =>
      if looksLikeTag (cellStr c0) then false
      else
        let cells := firstRow.filter (fun c => c ≠ none)
        if cells = [] then false
        else
          let strish := cells.filter (fun c => (cellStr c).data.any (fun ch => ¬ ch.isDigit))
          cells.length ≤ 2 * strish.length

/-- The effect of one ingest-gea.js call on the persisted header snapshot:
a detected header whose normalized names are not all empty overwrites the
store; everything else leaves it unchanged. -/
def snapStep (store : Option (List String)) (rows : List (List Cell)) :
    Option (List String) :=
  match rows with
  | [] => store
  | r0 :: _ =>
      if detectHasHeader r0 then
        let headers := r0.map (fun c => normHdr (cellStr c))
        if headers.any (fun h => h ≠ "") then some headers else store
      else store

/-! ## Animal-row deduplication (src/app/api/extract-animals/route.ts
`parseAnimalsFromText`, lines 60-68) -/

/-- The `Row` type of route.ts. -/
structure AnimalRow where
  tag_no : Option String
  species : Option String
  name : Option String
  sex : Option String
  breed : Option String
  birth_date : Option String
  age_months : Option ℕ
  passport : Option String
deriving DecidableEq

/-- The defensive de-dup filter: `if (!r.tag_no) return false; if
(seen.has(key)) return false; seen.add(key); return true` — `seen` collects the
tags of kept records. -/
def dedupAux (seen : List String) : List AnimalRow → List AnimalRow
  | [] => []
  | r :: rest =>
      match r.tag_no with
      | none => dedupAux seen rest
      | some t =>
          if t = "" then dedupAux seen rest
          else if t ∈ seen then dedupAux seen rest
          else r :: dedupAux (t :: seen) rest

/-- The deduplication pass of route.ts `parseAnimalsFromText`. -/
def dedupByTag (rs : List AnimalRow) : List AnimalRow := dedupAux [] rs

/-- Spec-shaped deduplication: keep a record iff its identity value is truthy
and no earlier record (kept or not) carried the same identity value. -/
def specDedupAux (prev : List (Option String)) : List AnimalRow → List AnimalRow
  | [] => []
  | r :: rest =>
      if r.tag_no ≠ none ∧ r.tag_no ≠ some "" ∧ r.tag_no ∉ prev
      then r :: specDedupAux (r.tag_no :: prev) rest
      else specDedupAux (r.tag_no :: prev) rest

/-- Entry point of the spec-shaped deduplication. -/
def specDedup (rs : List AnimalRow) : List AnimalRow := specDedupAux [] rs

/-- A record carrying only an identity tag (the other fields null). -/
def rowWithTag (t : Option String) : AnimalRow :=
  ⟨t, none, none, none, none, none, none, none⟩

/-! ## Date normalizers `toISO` (src/api/extractpdf.js lines 5-12) and
`toISODate` (src/unnamed/part_000 lines 69-93, string branch) -/

/-- A separator of the date regexes `[-./]`. -/
def sepOk (c : Char) : Bool := c = '-' || c = '.' || c = '/'

/-- Generic three-digit-group date matcher `^(\d..)SEP(\d..)SEP(\d..)$` where
`SEP` accepts any character passing `sep` (mixing allowed, as in the regex)
and each group's length must pass the corresponding predicate; the digit runs
are maximal, which agrees with the regex because no separator is a digit. -/
def dateGroups (sep : Char → Bool) (len1 len2 len3 : ℕ → Bool) (l : List Char) :
    Option (List Char × List Char × List Char) :=
  let d1 := l.takeWhile Char.isDigit
  match l.dropWhile Char.isDigit with
  | s1 :: r2 =>
      if sep s1 then
        let d2 := r2.takeWhile Char.isDigit
        match r2.dropWhile Char.isDigit with
        | s2 :: r4 =>
            if sep s2 then
              if len1 d1.length = true ∧ len2 d2.length = true ∧
                 r4.all Char.isDigit = true ∧ len3 r4.length = true
              then some (d1, d2, r4) else none
            else none
        | _ => none
      else none
  | _ => none

/-- `/^(\d{4})[-./](\d{2})[-./](\d{2})$/`, returning (year, month, day). -/
def isoMatch1 (l : List Char) : Option (List Char × List Char × List Char) :=
  dateGroups sepOk (fun n => decide (n = 4)) (fun n => decide (n = 2))
    (fun n => decide (n = 2)) l

/-- `/^(\d{2})[-./](\d{2})[-./](\d{4})$/`, returning (day, month, year). -/
def isoMatch2 (l : List Char) : Option (List Char × List Char × List Char) :=
  dateGroups sepOk (fun n => decide (n = 2)) (fun n => decide (n = 2))
    (fun n => decide (n = 4)) l

/-- The body of `toISO` on a non-falsy string. -/
def toISOCore (l : List Char) : Option String :=
  match isoMatch1 l with
  | some (y, m, d) => some ⟨y ++ '-' :: m ++ '-' :: d⟩
  | none =>
      match isoMatch2 l with
      | some (d, m, y) => some ⟨y ++ '-' :: m ++ '-' :: d⟩
      | none => none

/-- `toISO` of src/api/extractpdf.js: either accepted ordering is rewritten to
`YYYY-MM-DD`, anything else (including the empty, falsy, string) is null. -/
def toISO (s : String) : Option String :=
  if s = "" then none else toISOCore s.data

/-- `/^\d{4}-\d{2}-\d{2}$/` as a Boolean test. -/
def isoExact (l : List Char) : Bool :=
  (dateGroups (fun c => decide (c = '-')) (fun n => decide (n = 4))
    (fun n => decide (n = 2)) (fun n => decide (n = 2)) l).isSome

/-- `/^(\d{2})\.(\d{2})\.(\d{4})$/`, returning (day, month, year). -/
def dotMatch (l : List Char) : Option (List Char × List Char × List Char) :=
  dateGroups (fun c => decide (c = '.')) (fun n => decide (n = 2))
    (fun n => decide (n = 2)) (fun n => decide (n = 4)) l

/-- `/^(\d{1,2})\/(\d{1,2})\/(\d{2,4})$/`, returning (month, day, year); the
digit runs are maximal, which coincides with the regex since `/` is not a
digit. -/
def usMatch (l : List Char) : Option (List Char × List Char × List Char) :=
  dateGroups (fun c => decide (c = '/')) (fun n => decide (1 ≤ n ∧ n ≤ 2))
    (fun n => decide (1 ≤ n ∧ n ≤ 2)) (fun n => decide (2 ≤ n ∧ n ≤ 4)) l

/-- `String(m).padStart(2, '0')` for a 1-2 digit group. -/
def pad2 (l : List Char) : List Char := if l.length = 1 then '0' :: l else l

/-- `yy.length === 2 ? `20${yy}` : yy`. -/
def fixYear (y : List Char) : List Char := if y.length = 2 then '2' :: '0' :: y else y

/-- The body of `toISODate` after `String(val).trim()`. -/
def toISODateCore (l : List Char) : Option String :=
  if l = [] then none
  else if isoExact l then some ⟨l⟩
  else
    match dotMatch l with
    | some (d, m, y) => some ⟨y ++ '-' :: m ++ '-' :: d⟩
    | none =>
        match usMatch l with
        | some (m, d, y) => some ⟨fixYear y ++ '-' :: pad2 m ++ '-' :: pad2 d⟩
        | none => some ⟨l⟩

/-- `toISODate` of src/unnamed/part_000 on a string input (the `Date` branch
concerns spreadsheet date objects, which `raw:false` renders as text before
this handler sees them): null for blank input; ISO values pass through;
`dd.MM.yyyy` and US `M/D/YY[YY]` are rewritten; anything else passes through
trimmed. -/
def toISODate (s : String) : Option String := toISODateCore (trimChars s.data)

/-! ## Section markers and the extract-automatic-file.js handler pipeline
(lines 117-160 and 240-292) -/

/-- `isRowEmpty`: every cell null or blank. -/
def isRowEmpty (row : List Cell) : Bool :=
  row.isEmpty || row.all (fun v => v = none || jsTrim (cellStr v) = "")

/-- `rowToString`: trimmed non-empty cell texts joined with single spaces,
lowercased. -/
def rowToString (row : List Cell) : List Char :=
  (List.intercalate [' ']
    ((row.map (fun v => trimChars (cellStr v).data)).filter (fun l => l ≠ []))).map
    Char.toLower

/-- `hay` starts with `pat`. -/
def listStartsWith : List Char → List Char → Bool
  | _, [] => true
  | [], _ :: _ => false
  | c :: cs, p :: ps => c = p && listStartsWith cs ps

/-- JS `String.prototype.includes`. -/
def containsSeg (pat : List Char) : List Char → Bool
  | [] => listStartsWith [] pat
  | c :: t => listStartsWith (c :: t) pat || containsSeg pat t

/-- `findMarkerIndex`: first row whose joined text contains the lowercased
marker (`none` models the JS `-1`). -/
def findMarkerIndex (rows : List (List Cell)) (marker : String) : Option ℕ :=
  rows.findIdx? (fun r => containsSeg (marker.data.map Char.toLower) (rowToString r))

/-- `cleanSectionRows`: strip leading/trailing empty rows, then drop the empty
rows that remain. -/
def cleanSectionRows (l : List (List Cell)) : List (List Cell) :=
  ((((l.dropWhile isRowEmpty).reverse).dropWhile isRowEmpty).reverse).filter
    (fun r => ¬ isRowEmpty r)

/-- `rows.slice(a, b)`. -/
def sliceRows (rows : List (List Cell)) (a b : ℕ) : List (List Cell) :=
  (rows.drop a).take (b - a)

/-- Outcome of one extract-automatic-file.js call after the spreadsheet has
been read into a grid. -/
inductive ExtractResult where
  | noRows : ExtractResult
  | missingMarkers (i1 i2 i3 : Option ℕ) : ExtractResult
  | ok (at2Cols : List String) (ataskaita1 ataskaita2 ataskaita3 : List Obj) :
      ExtractResult
deriving DecidableEq

/-- The grid-processing pipeline of the extract-automatic-file.js handler:
empty grid check, the three marker lookups, then section slicing, schema
resolution and row mapping only when all three markers were found. -/
def processRows (rows : List (List Cell)) : ExtractResult :=
  if rows = [] then .noRows
  else
    let i1 := findMarkerIndex rows "1 ATASKAITA"
    let i2 := findMarkerIndex rows "2 ATASKAITA"
    let i3 := findMarkerIndex rows "3 ATASKAITA"
    match i1, i2, i3 with
    | some a, some b, some c =>
        let sec1 := cleanSectionRows (sliceRows rows (a + 1) b)
        let sec2 := cleanSectionRows (sliceRows rows (b + 1) c)
        let sec3 := cleanSectionRows (rows.drop (c + 1))
        let at2Cols := pickAt2Schema sec2
        .ok at2Cols (mapRowsToObjects sec1 AT1_COLS) (mapRowsToObjects sec2 at2Cols)
          (mapRowsToObjects sec3 AT3_COLS)
    | a, b, c => .missingMarkers a b c

/-! ## Lemmas: decimal rendering -/

theorem isDigit_digitChar (d : ℕ) : (digitChar d).isDigit = true := by
  unfold digitChar
  split <;> decide

theorem charVal_digitChar {d : ℕ} (h : d < 10) : charVal (digitChar d) = d := by
  interval_cases d <;> decide

theorem natCharsAux_append (fuel : ℕ) :
    ∀ n acc, natCharsAux fuel n acc = natCharsAux fuel n [] ++ acc := by
  induction fuel with
  | zero => intro n acc; simp [natCharsAux]
  | succ f ih =>
      intro n acc
      by_cases h : n < 10
      · simp [natCharsAux, h]
      · simp only [natCharsAux, if_neg h]
        rw [ih (n / 10) (digitChar (n % 10) :: acc), ih (n / 10) [digitChar (n % 10)]]
        simp

theorem valCh_append_one (xs : List Char) (c : Char) :
    valCh (xs ++ [c]) = 10 * valCh xs + charVal c := by
  simp [valCh, List.foldl_append]

theorem valCh_natCharsAux (fuel : ℕ) :
    ∀ n, n ≤ fuel → valCh (natCharsAux fuel n []) = n := by
  induction fuel with
  | zero =>
      intro n hn
      interval_cases n
      decide
  | succ f ih =>
      intro n hn
      by_cases h : n < 10
      · simp only [natCharsAux, if_pos h]
        show valCh ([] ++ [digitChar n]) = n
        rw [valCh_append_one, charVal_digitChar h]
        simp [valCh]
      · simp only [natCharsAux, if_neg h]
        rw [natCharsAux_append, valCh_append_one, ih (n / 10) (by omega),
          charVal_digitChar (Nat.mod_lt n (by omega))]
        omega

theorem valCh_natToChars (n : ℕ) : valCh (natToChars n) = n :=
  valCh_natCharsAux n n le_rfl

theorem natToChars_injective {m n : ℕ} (h : natToChars m = natToChars n) : m = n := by
  have hm := valCh_natToChars m
  rw [h, valCh_natToChars] at hm
  omega

theorem mem_natCharsAux_isDigit (fuel : ℕ) :
    ∀ n acc c, (∀ d ∈ acc, Char.isDigit d = true) → c ∈ natCharsAux fuel n acc →
      c.isDigit = true := by
  induction fuel with
  | zero =>
      intro n acc c hacc hc
      simp only [natCharsAux, List.mem_cons] at hc
      rcases hc with rfl | hc
      · exact isDigit_digitChar n
      · exact hacc c hc
  | succ f ih =>
      intro n acc c hacc hc
      by_cases h : n < 10
      · simp only [natCharsAux, if_pos h, List.mem_cons] at hc
        rcases hc with rfl | hc
        · exact isDigit_digitChar n
        · exact hacc c hc
      · simp only [natCharsAux, if_neg h] at hc
        refine ih (n / 10) _ c ?_ hc
        intro d hd
        simp only [List.mem_cons] at hd
        rcases hd with rfl | hd
        · exact isDigit_digitChar (n % 10)
        · exact hacc d hd

theorem mem_natToChars_isDigit {n : ℕ} {c : Char} (hc : c ∈ natToChars n) :
    c.isDigit = true :=
  mem_natCharsAux_isDigit n n [] c (by simp) hc

/-! ## Lemmas: trimming -/

theorem dropWhile_of_head_not {p : Char → Bool} :
    ∀ {l : List Char}, (∀ c, l.head? = some c → p c = false) → l.dropWhile p = l := by
  intro l h
  cases l with
  | nil => rfl
  | cons a t =>
      have ha := h a rfl
      simp [List.dropWhile_cons, ha]

theorem head_dropWhile_not (p : Char → Bool) :
    ∀ (l : List Char) (c : Char), (l.dropWhile p).head? = some c → p c = false := by
  intro l
  induction l with
  | nil => intro c h; simp at h
  | cons a t ih =>
      intro c h
      by_cases ha : p a
      · rw [List.dropWhile_cons, if_pos ha] at h
        exact ih c h
      · rw [List.dropWhile_cons, if_neg ha] at h
        simp only [List.head?_cons, Option.some.injEq] at h
        subst h
        simpa using ha

theorem trimChars_of_noWs {l : List Char} (h : ∀ c ∈ l, c.isWhitespace = false) :
    trimChars l = l := by
  unfold trimChars
  rw [dropWhile_of_head_not (fun c hc => h c (List.mem_of_mem_head? hc))]
  rw [dropWhile_of_head_not
    (fun c hc => h c (by simpa using List.mem_of_mem_head? hc))]
  simp

theorem dropWhile_suffix_ext (p : Char → Bool) :
    ∀ l : List Char, ∃ t, l = t ++ l.dropWhile p := by
  intro l
  induction l with
  | nil => exact ⟨[], rfl⟩
  | cons a l ih =>
      by_cases ha : p a
      · obtain ⟨t, ht⟩ := ih
        exact ⟨a :: t, by simp [List.dropWhile_cons, ha, ← ht]⟩
      · exact ⟨[], by simp [List.dropWhile_cons, ha]⟩

theorem trimChars_idem (l : List Char) : trimChars (trimChars l) = trimChars l := by
  set l1 := l.dropWhile Char.isWhitespace with hl1
  set l2 := l1.reverse.dropWhile Char.isWhitespace with hl2
  show trimChars l2.reverse = l2.reverse
  rcases Decidable.em (l2 = []) with h2 | h2
  · simp [h2, trimChars]
  · have hfront : l2.reverse.dropWhile Char.isWhitespace = l2.reverse := by
      refine dropWhile_of_head_not ?_
      intro c hc
      obtain ⟨t, ht⟩ := dropWhile_suffix_ext Char.isWhitespace l1.reverse
      rw [List.head?_reverse] at hc
      have hlast : l1.reverse.getLast? = some c := by
        rw [ht, ← hl2, List.getLast?_append_of_ne_nil _ h2]
        exact hc
      rw [List.getLast?_reverse] at hlast
      exact head_dropWhile_not Char.isWhitespace l c (hl1 ▸ hlast)
    have hback : l2.dropWhile Char.isWhitespace = l2 := by
      refine dropWhile_of_head_not ?_
      intro c hc
      exact head_dropWhile_not Char.isWhitespace l1.reverse c (hl2 ▸ hc)
    unfold trimChars
    rw [hfront, List.reverse_reverse, hback]

/-! ## Lemmas: underscore-suffixed names -/

theorem append_underscore_inj :
    ∀ (l1 l2 r1 r2 : List Char), '_' ∉ l1 → '_' ∉ l2 →
      l1 ++ '_' :: r1 = l2 ++ '_' :: r2 → l1 = l2 ∧ r1 = r2 := by
  intro l1
  induction l1 with
  | nil =>
      intro l2 r1 r2 _ h2 h
      cases l2 with
      | nil => simpa using h
      | cons b t =>
          simp only [List.nil_append, List.cons_append, List.cons.injEq] at h
          exact absurd (Or.inl h.1) (by simpa using h2)
  | cons a t ih =>
      intro l2 r1 r2 h1 h2 h
      cases l2 with
      | nil =>
          simp only [List.cons_append, List.nil_append, List.cons.injEq] at h
          exact absurd (Or.inl h.1.symm) (by simpa using h1)
      | cons b u =>
          simp only [List.cons_append, List.cons.injEq] at h
          obtain ⟨rfl, h⟩ := h
          obtain ⟨ht, hr⟩ := ih u r1 r2 (fun hm => h1 (List.mem_cons_of_mem _ hm))
            (fun hm => h2 (List.mem_cons_of_mem _ hm)) h
          exact ⟨by rw [ht], hr⟩

theorem data_suffixName (b : String) (k : ℕ) :
    (suffixName b k).data = b.data ++ '_' :: natToChars k := rfl

theorem underscore_mem_suffixName (b : String) (k : ℕ) :
    '_' ∈ (suffixName b k).data := by
  rw [data_suffixName]
  simp

theorem underscore_not_mem_natToChars (n : ℕ) : '_' ∉ natToChars n := by
  intro h
  have := mem_natToChars_isDigit h
  simp at this

theorem suffixName_inj {b1 b2 : String} {k1 k2 : ℕ}
    (h1 : '_' ∉ b1.data) (h2 : '_' ∉ b2.data)
    (h : suffixName b1 k1 = suffixName b2 k2) : b1 = b2 ∧ k1 = k2 := by
  have hd : b1.data ++ '_' :: natToChars k1 = b2.data ++ '_' :: natToChars k2 := by
    rw [← data_suffixName, ← data_suffixName, h]
  obtain ⟨hb, hk⟩ := append_underscore_inj _ _ _ _ h1 h2 hd
  exact ⟨String.ext hb, natToChars_injective hk⟩

/-! ## Lemmas: header de-duplication -/

theorem countEq_append_one (pre : List String) (b x : String) :
    countEq (pre ++ [b]) x = if x = b then countEq pre x + 1 else countEq pre x := by
  simp only [countEq, List.filter_append]
  by_cases h : b = x
  · simp [h, List.filter]
  · have h2 : ¬ (x = b) := fun he => h he.symm
    simp [List.filter, h, h2]

theorem dedupeHeadersAux_eq_dedupePos :
    ∀ (l : List String) (pre : List String),
      dedupeHeadersAux (fun b => countEq pre b) l = dedupePos pre (l.map baseOf) := by
  intro l
  induction l with
  | nil => intro pre; rfl
  | cons h rest ih =>
      intro pre
      by_cases hz : countEq pre (baseOf h) = 0
      · have hupd : (fun x => if x = baseOf h then 1 else countEq pre x)
            = fun x => countEq (pre ++ [baseOf h]) x := by
          funext x
          rw [countEq_append_one]
          by_cases hx : x = baseOf h
          · subst hx; simp [hz]
          · simp [hx]
        simp only [dedupeHeadersAux, dedupePos, List.map_cons, if_pos hz, hupd, ih]
      · have hupd : (fun x => if x = baseOf h then countEq pre (baseOf h) + 1
              else countEq pre x)
            = fun x => countEq (pre ++ [baseOf h]) x := by
          funext x
          rw [countEq_append_one]
          by_cases hx : x = baseOf h
          · subst hx; simp
          · simp [hx]
        simp only [dedupeHeadersAux, dedupePos, List.map_cons, if_neg hz, hupd, ih]

theorem dedupeHeaders_eq_dedupePos (hs : List String) :
    dedupeHeaders hs = dedupePos [] (hs.map baseOf) := by
  have h0 : (fun _ : String => 0) = fun b => countEq [] b := by
    funext b; rfl
  rw [dedupeHeaders, h0, dedupeHeadersAux_eq_dedupePos]

theorem outShape_mono {seen seen' : String → ℕ} (hm : ∀ x, seen x ≤ seen' x)
    {b out : String} (h : outShape seen' b out) : outShape seen b out := by
  rcases h with ⟨ho, hz⟩ | ⟨k, hk2, hlt, ho⟩
  · exact Or.inl ⟨ho, Nat.le_zero.1 (hz ▸ hm b)⟩
  · exact Or.inr ⟨k, hk2, lt_of_le_of_lt (hm b) hlt, ho⟩

theorem mem_dedupeHeadersAux :
    ∀ (l : List String) (seen : String → ℕ) (out : String),
      out ∈ dedupeHeadersAux seen l → ∃ h ∈ l, outShape seen (baseOf h) out := by
  intro l
  induction l with
  | nil => intro seen out hmem; simp [dedupeHeadersAux] at hmem
  | cons h rest ih =>
      intro seen out hmem
      by_cases hz : seen (baseOf h) = 0
      · simp only [dedupeHeadersAux, if_pos hz, List.mem_cons] at hmem
        rcases hmem with rfl | hmem
        · exact ⟨h, List.mem_cons_self _ _, Or.inl ⟨rfl, hz⟩⟩
        · obtain ⟨h2, hh2, hsh⟩ := ih _ out hmem
          refine ⟨h2, List.mem_cons_of_mem _ hh2, outShape_mono ?_ hsh⟩
          intro x
          by_cases hx : x = baseOf h
          · subst hx; simp [hz]
          · simp [hx]
      · simp only [dedupeHeadersAux, if_neg hz, List.mem_cons] at hmem
        rcases hmem with rfl | hmem
        · exact ⟨h, List.mem_cons_self _ _, Or.inr ⟨seen (baseOf h) + 1, by omega,
            by omega, rfl⟩⟩
        · obtain ⟨h2, hh2, hsh⟩ := ih _ out hmem
          refine ⟨h2, List.mem_cons_of_mem _ hh2, outShape_mono ?_ hsh⟩
          intro x
          by_cases hx : x = baseOf h
          · subst hx; simp
          · simp [hx]

theorem nodup_dedupeHeadersAux :
    ∀ (l : List String) (seen : String → ℕ),
      (∀ h ∈ l, '_' ∉ (baseOf h).data) → (dedupeHeadersAux seen l).Nodup := by
  intro l
  induction l with
  | nil => intro seen _; simp [dedupeHeadersAux]
  | cons h rest ih =>
      intro seen hfree
      have hfree_rest : ∀ h2 ∈ rest, '_' ∉ (baseOf h2).data :=
        fun h2 hm => hfree h2 (List.mem_cons_of_mem _ hm)
      have hfree_h : '_' ∉ (baseOf h).data := hfree h (List.mem_cons_self _ _)
      by_cases hz : seen (baseOf h) = 0
      · simp only [dedupeHeadersAux, if_pos hz, List.nodup_cons]
        refine ⟨?_, ih _ hfree_rest⟩
        intro hmem
        obtain ⟨h2, hh2, hsh⟩ := mem_dedupeHeadersAux rest _ _ hmem
        rcases hsh with ⟨ho, hz2⟩ | ⟨k, _, _, ho⟩
        · rw [ho] at hz2
          simp at hz2
        · exact hfree_h (ho ▸ underscore_mem_suffixName (baseOf h2) k)
      · simp only [dedupeHeadersAux, if_neg hz, List.nodup_cons]
        refine ⟨?_, ih _ hfree_rest⟩
        intro hmem
        obtain ⟨h2, hh2, hsh⟩ := mem_dedupeHeadersAux rest _ _ hmem
        rcases hsh with ⟨ho, _⟩ | ⟨k, _, hlt, ho⟩
        · exact hfree_rest h2 hh2 (ho ▸ underscore_mem_suffixName (baseOf h) _)
        · obtain ⟨hb, hk⟩ := suffixName_inj hfree_h (hfree_rest h2 hh2) ho
          rw [← hb] at hlt
          simp at hlt
          omega

theorem nodup_dedupeHeaders {hs : List String}
    (hfree : ∀ h ∈ hs, '_' ∉ (baseOf h).data) : (dedupeHeaders hs).Nodup :=
  nodup_dedupeHeadersAux hs _ hfree

theorem dedupeHeadersAux_bare :
    ∀ (l : List String) (seen : String → ℕ),
      (∀ h ∈ l, seen (baseOf h) = 0) → (l.map baseOf).Nodup →
      dedupeHeadersAux seen l = l.map baseOf := by
  intro l
  induction l with
  | nil => intro seen _ _; rfl
  | cons h rest ih =>
      intro seen hz hnd
      have hzh := hz h (List.mem_cons_self _ _)
      simp only [dedupeHeadersAux, if_pos hzh, List.map_cons]
      simp only [List.map_cons, List.nodup_cons] at hnd
      congr 1
      refine ih _ ?_ hnd.2
      intro h2 hh2
      have hne : baseOf h2 ≠ baseOf h := fun he =>
        hnd.1 (he ▸ List.mem_map_of_mem baseOf hh2)
      simp only [if_neg hne]
      exact hz h2 (List.mem_cons_of_mem _ hh2)

/-! ## Lemmas: JS object keys -/

theorem any_key_iff (o : Obj) (k : String) :
    o.any (fun p => p.1 = k) = true ↔ k ∈ recKeys o := by
  simp [List.any_eq_true, recKeys, List.mem_map]

theorem recKeys_objInsert (o : Obj) (k : String) (v : Cell) :
    recKeys (objInsert o k v)
      = if k ∈ recKeys o then recKeys o else recKeys o ++ [k] := by
  unfold objInsert
  by_cases h : o.any (fun p => p.1 = k) = true
  · rw [if_pos h, if_pos ((any_key_iff o k).1 h)]
    simp only [recKeys, List.map_map]
    refine List.map_congr_left ?_
    intro p _
    by_cases hp : p.1 = k
    · simp [hp]
    · simp [hp]
  · rw [if_neg h, if_neg (fun hm => h ((any_key_iff o k).2 hm))]
    simp [recKeys]

theorem newKeys_congr {s1 s2 : List String} (h : ∀ x, x ∈ s1 ↔ x ∈ s2) :
    ∀ l, newKeys s1 l = newKeys s2 l := by
  intro l
  induction l generalizing s1 s2 with
  | nil => rfl
  | cons k rest ih =>
      simp only [newKeys]
      by_cases hk : k ∈ s1
      · rw [if_pos hk, if_pos ((h k).1 hk)]
        exact ih h
      · rw [if_neg hk, if_neg (fun hm => hk ((h k).2 hm))]
        refine congrArg _ (ih ?_)
        intro x
        simp only [List.mem_cons]
        exact or_congr Iff.rfl (h x)

theorem recKeys_foldl (kvs : List (String × Cell)) :
    ∀ o : Obj, recKeys (kvs.foldl (fun o p => objInsert o p.1 p.2) o)
      = recKeys o ++ newKeys (recKeys o) (kvs.map Prod.fst) := by
  induction kvs with
  | nil => intro o; simp [newKeys]
  | cons kv rest ih =>
      intro o
      simp only [List.foldl_cons, List.map_cons, newKeys]
      rw [ih, recKeys_objInsert]
      by_cases h : kv.1 ∈ recKeys o
      · rw [if_pos h, if_pos h]
      · rw [if_neg h, if_neg h]
        rw [@newKeys_congr (recKeys o ++ [kv.1]) (kv.1 :: recKeys o)
          (fun x => by simp [or_comm])]
        simp

theorem recKeys_buildObj {cols : List String} {vals : List Cell}
    (hlen : cols.length ≤ vals.length) :
    recKeys (buildObj cols vals) = newKeys [] cols := by
  unfold buildObj
  rw [recKeys_foldl, List.map_fst_zip cols vals hlen]
  rfl

theorem newKeys_of_nodup :
    ∀ (l : List String) (seen : List String), (∀ k ∈ l, k ∉ seen) → l.Nodup →
      newKeys seen l = l := by
  intro l
  induction l with
  | nil => intro seen _ _; rfl
  | cons k rest ih =>
      intro seen hout hnd
      simp only [List.nodup_cons] at hnd
      simp only [newKeys, if_neg (hout k (List.mem_cons_self _ _))]
      refine congrArg _ (ih _ ?_ hnd.2)
      intro x hx
      simp only [List.mem_cons, not_or]
      exact ⟨fun he => hnd.1 (he ▸ hx), hout x (List.mem_cons_of_mem _ hx)⟩

theorem length_sliceAndPad (w : ℕ) (r : List Cell) :
    (sliceAndPad w r).length = w := by
  simp only [sliceAndPad, List.length_append, List.length_take, List.length_replicate]
  omega

/-! ## Lemmas: deduplication by identity tag -/

theorem dedupAux_eq_specDedupAux :
    ∀ (rs : List AnimalRow) (seen : List String) (prev : List (Option String)),
      (∀ t : String, t ≠ "" → (t ∈ seen ↔ some t ∈ prev)) →
      dedupAux seen rs = specDedupAux prev rs := by
  intro rs
  induction rs with
  | nil => intros; rfl
  | cons r rest ih =>
      intro seen prev hinv
      cases htag : r.tag_no with
      | none =>
          have hL : dedupAux seen (r :: rest) = dedupAux seen rest := by
            simp [dedupAux, htag]
          have hR : specDedupAux prev (r :: rest) = specDedupAux (none :: prev) rest := by
            simp [specDedupAux, htag]
          rw [hL, hR]
          refine ih seen _ ?_
          intro t ht
          rw [hinv t ht]
          simp
      | some t =>
          by_cases hte : t = ""
          · subst hte
            have hL : dedupAux seen (r :: rest) = dedupAux seen rest := by
              simp [dedupAux, htag]
            have hR : specDedupAux prev (r :: rest)
                = specDedupAux (some "" :: prev) rest := by
              simp [specDedupAux, htag]
            rw [hL, hR]
            refine ih seen _ ?_
            intro t2 ht2
            rw [hinv t2 ht2]
            simp [ht2]
          · by_cases hseen : t ∈ seen
            · have hL : dedupAux seen (r :: rest) = dedupAux seen rest := by
                simp [dedupAux, htag, hte, hseen]
              have hp : some t ∈ prev := (hinv t hte).1 hseen
              have hR : specDedupAux prev (r :: rest)
                  = specDedupAux (some t :: prev) rest := by
                simp [specDedupAux, htag, hp]
              rw [hL, hR]
              refine ih seen _ ?_
              intro t2 ht2
              rw [hinv t2 ht2]
              by_cases he2 : t2 = t
              · subst he2
                simp [hp]
              · simp [he2]
            · have hL : dedupAux seen (r :: rest)
                  = r :: dedupAux (t :: seen) rest := by
                simp [dedupAux, htag, hte, hseen]
              have hp : some t ∉ prev := fun hm => hseen ((hinv t hte).2 hm)
              have hR : specDedupAux prev (r :: rest)
                  = r :: specDedupAux (some t :: prev) rest := by
                simp [specDedupAux, htag, hte, hp]
              rw [hL, hR]
              refine congrArg _ (ih (t :: seen) _ ?_)
              intro t2 ht2
              by_cases he2 : t2 = t
              · subst he2
                simp
              · simp only [List.mem_cons, Option.some.injEq, he2, false_or]
                rw [hinv t2 ht2]

theorem dedupByTag_eq_specDedup (rs : List AnimalRow) : dedupByTag rs = specDedup rs :=
  dedupAux_eq_specDedupAux rs [] [] (by simp)

/-! ## Lemmas: character classes and digit runs -/

theorem isDigit_not_ws {c : Char} (h : c.isDigit = true) : c.isWhitespace = false := by
  simp only [Char.isDigit] at h
  simp only [Char.isWhitespace, Bool.or_eq_false_iff, decide_eq_false_iff_not]
  refine ⟨⟨⟨?_, ?_⟩, ?_⟩, ?_⟩ <;> rintro rfl <;> exact absurd h (by decide)

theorem ne_of_isDigit {c d : Char} (h : c.isDigit = true) (hd : d.isDigit = false) :
    c ≠ d := by
  intro he
  subst he
  rw [h] at hd
  cases hd

theorem takeWhile_append_all {p : Char → Bool} {l : List Char} (r : List Char)
    (hl : ∀ c ∈ l, p c = true) :
    (l ++ r).takeWhile p = l ++ r.takeWhile p := by
  induction l with
  | nil => rfl
  | cons a t ih =>
      simp only [List.cons_append, List.takeWhile_cons,
        hl a (List.mem_cons_self _ _), if_true]
      rw [ih (fun c hc => hl c (List.mem_cons_of_mem _ hc))]

theorem dropWhile_append_all {p : Char → Bool} {l : List Char} (r : List Char)
    (hl : ∀ c ∈ l, p c = true) :
    (l ++ r).dropWhile p = r.dropWhile p := by
  induction l with
  | nil => rfl
  | cons a t ih =>
      simp only [List.cons_append, List.dropWhile_cons,
        hl a (List.mem_cons_self _ _), if_true]
      exact ih (fun c hc => hl c (List.mem_cons_of_mem _ hc))

theorem takeWhile_isDigit_stop {l : List Char} {s : Char} (r : List Char)
    (hl : ∀ c ∈ l, Char.isDigit c = true) (hs : s.isDigit = false) :
    (l ++ s :: r).takeWhile Char.isDigit = l := by
  rw [takeWhile_append_all _ hl]
  simp [List.takeWhile_cons, hs]

theorem dropWhile_isDigit_stop {l : List Char} {s : Char} (r : List Char)
    (hl : ∀ c ∈ l, Char.isDigit c = true) (hs : s.isDigit = false) :
    (l ++ s :: r).dropWhile Char.isDigit = s :: r := by
  rw [dropWhile_append_all _ hl]
  simp [List.dropWhile_cons, hs]

/-! ## Lemmas: date matchers -/

theorem mk_ne_empty {l : List Char} (h : l ≠ []) : (⟨l⟩ : String) ≠ "" :=
  fun he => h (congrArg String.data he)

theorem dateGroups_eq_some {sep : Char → Bool} {len1 len2 len3 : ℕ → Bool}
    {l d1 d2 d3 : List Char}
    (h : dateGroups sep len1 len2 len3 l = some (d1, d2, d3)) :
    (∀ c ∈ d1, c.isDigit = true) ∧ len1 d1.length = true ∧
    (∀ c ∈ d2, c.isDigit = true) ∧ len2 d2.length = true ∧
    (∀ c ∈ d3, c.isDigit = true) ∧ len3 d3.length = true ∧
    ∃ s1 s2, sep s1 = true ∧ sep s2 = true ∧ s1.isDigit = false ∧
      s2.isDigit = false ∧ l = d1 ++ s1 :: d2 ++ s2 :: d3 := by
  unfold dateGroups at h
  cases heq1 : l.dropWhile Char.isDigit with
  | nil => rw [heq1] at h; simp at h
  | cons s1 r2 =>
      rw [heq1] at h
      try simp only [] at h
      by_cases hs1 : sep s1 = true
      · rw [if_pos hs1] at h
        cases heq2 : r2.dropWhile Char.isDigit with
        | nil => rw [heq2] at h; simp at h
        | cons s2 r4 =>
            rw [heq2] at h
            try simp only [] at h
            by_cases hs2 : sep s2 = true
            · rw [if_pos hs2] at h
              split_ifs at h with hcond
              obtain ⟨hc1, hc2, hc3, hc4⟩ := hcond
              simp only [Option.some.injEq, Prod.mk.injEq] at h
              obtain ⟨hd1, hd2, hd3⟩ := h
              have hds1 : s1.isDigit = false :=
                head_dropWhile_not Char.isDigit l s1 (by rw [heq1]; rfl)
              have hds2 : s2.isDigit = false :=
                head_dropWhile_not Char.isDigit r2 s2 (by rw [heq2]; rfl)
              subst hd1; subst hd2; subst hd3
              refine ⟨fun c hc => List.mem_takeWhile_imp hc, hc1,
                fun c hc => List.mem_takeWhile_imp hc, hc2,
                fun c hc => by rw [List.all_eq_true] at hc3; exact hc3 c hc, hc4,
                s1, s2, hs1, hs2, hds1, hds2, ?_⟩
              have hr2 : r2 = List.takeWhile Char.isDigit r2 ++ s2 :: r4 := by
                conv_lhs => rw [← List.takeWhile_append_dropWhile Char.isDigit r2, heq2]
              conv_lhs => rw [← List.takeWhile_append_dropWhile Char.isDigit l, heq1,
                hr2]
              simp
            · rw [if_neg hs2] at h; simp at h
      · rw [if_neg hs1] at h; simp at h

theorem dateGroups_canonical {sep : Char → Bool} {len1 len2 len3 : ℕ → Bool}
    {d1 d2 d3 : List Char} {s1 s2 : Char}
    (h1 : ∀ c ∈ d1, c.isDigit = true) (h2 : ∀ c ∈ d2, c.isDigit = true)
    (h3 : ∀ c ∈ d3, c.isDigit = true)
    (hs1 : s1.isDigit = false) (hs2 : s2.isDigit = false) :
    dateGroups sep len1 len2 len3 (d1 ++ s1 :: d2 ++ s2 :: d3)
      = if sep s1 = true ∧ sep s2 = true ∧ len1 d1.length = true ∧
           len2 d2.length = true ∧ len3 d3.length = true
        then some (d1, d2, d3) else none := by
  have hsh : d1 ++ s1 :: d2 ++ s2 :: d3 = d1 ++ s1 :: (d2 ++ s2 :: d3) := by simp
  unfold dateGroups
  rw [hsh, takeWhile_isDigit_stop _ h1 hs1, dropWhile_isDigit_stop _ h1 hs1]
  simp only []
  by_cases hq1 : sep s1 = true
  · rw [if_pos hq1, takeWhile_isDigit_stop _ h2 hs2, dropWhile_isDigit_stop _ h2 hs2]
    simp only []
    by_cases hq2 : sep s2 = true
    · rw [if_pos hq2]
      by_cases hcond : len1 d1.length = true ∧ len2 d2.length = true ∧
          d3.all Char.isDigit = true ∧ len3 d3.length = true
      · rw [if_pos hcond, if_pos ⟨hq1, hq2, hcond.1, hcond.2.1, hcond.2.2.2⟩]
      · rw [if_neg hcond, if_neg (by
          rintro ⟨_, _, hl1, hl2, hl3⟩
          exact hcond ⟨hl1, hl2, List.all_eq_true.2 (fun c hc => h3 c hc), hl3⟩)]
    · rw [if_neg hq2, if_neg (by rintro ⟨_, hc, _⟩; exact hq2 hc)]
  · rw [if_neg hq1, if_neg (by rintro ⟨hc, _⟩; exact hq1 hc)]

theorem toISO_canon {y m d : List Char}
    (hy : ∀ c ∈ y, c.isDigit = true) (hyl : y.length = 4)
    (hm : ∀ c ∈ m, c.isDigit = true) (hml : m.length = 2)
    (hd : ∀ c ∈ d, c.isDigit = true) (hdl : d.length = 2) :
    toISO ⟨y ++ '-' :: m ++ '-' :: d⟩ = some ⟨y ++ '-' :: m ++ '-' :: d⟩ := by
  unfold toISO
  rw [if_neg (mk_ne_empty (by simp))]
  show toISOCore (y ++ '-' :: m ++ '-' :: d) = _
  unfold toISOCore isoMatch1
  rw [dateGroups_canonical hy hm hd (by decide) (by decide),
    if_pos ⟨by decide, by decide, by simp [hyl], by simp [hml], by simp [hdl]⟩]

theorem toISO_idem {s t : String} (h : toISO s = some t) : toISO t = some t := by
  unfold toISO toISOCore at h
  split_ifs at h with he
  cases hm1 : isoMatch1 s.data with
  | some ymd =>
      obtain ⟨y, m, d⟩ := ymd
      rw [hm1] at h
      simp only [Option.some.injEq] at h
      obtain ⟨hy, hyl, hm, hml, hd, hdl, -⟩ := dateGroups_eq_some hm1
      rw [← h]
      exact toISO_canon hy (by simpa using hyl) hm (by simpa using hml)
        hd (by simpa using hdl)
  | none =>
      rw [hm1] at h
      try simp only [] at h
      cases hm2 : isoMatch2 s.data with
      | some dmy =>
          obtain ⟨d, m, y⟩ := dmy
          rw [hm2] at h
          simp only [Option.some.injEq] at h
          obtain ⟨hd, hdl, hm, hml, hy, hyl, -⟩ := dateGroups_eq_some hm2
          rw [← h]
          exact toISO_canon hy (by simpa using hyl) hm (by simpa using hml)
            hd (by simpa using hdl)
      | none =>
          rw [hm2] at h
          simp at h

theorem noWs_dateList {y m d : List Char}
    (hy : ∀ c ∈ y, c.isDigit = true) (hm : ∀ c ∈ m, c.isDigit = true)
    (hd : ∀ c ∈ d, c.isDigit = true) :
    ∀ c ∈ y ++ '-' :: m ++ '-' :: d, c.isWhitespace = false := by
  intro c hc
  have hc2 : c ∈ y ∨ c = '-' ∨ c ∈ m ∨ c ∈ d := by
    simp only [List.cons_append, List.mem_append, List.mem_cons] at hc
    tauto
  rcases hc2 with hc2 | rfl | hc2 | hc2
  · exact isDigit_not_ws (hy c hc2)
  · decide
  · exact isDigit_not_ws (hm c hc2)
  · exact isDigit_not_ws (hd c hc2)

theorem isoExact_inv {l : List Char} (h : isoExact l = true) :
    ∃ y m d, (∀ c ∈ y, c.isDigit = true) ∧ y.length = 4 ∧
      (∀ c ∈ m, c.isDigit = true) ∧ m.length = 2 ∧
      (∀ c ∈ d, c.isDigit = true) ∧ d.length = 2 ∧
      l = y ++ '-' :: m ++ '-' :: d := by
  unfold isoExact at h
  cases hdg : dateGroups (fun c => decide (c = '-')) (fun n => decide (n = 4))
      (fun n => decide (n = 2)) (fun n => decide (n = 2)) l with
  | none => rw [hdg] at h; simp at h
  | some p =>
      obtain ⟨d1, d2, d3⟩ := p
      obtain ⟨h1, hl1, h2, hl2, h3, hl3, s1, s2, hs1, hs2, -, -, hl⟩ :=
        dateGroups_eq_some hdg
      have e1 : s1 = '-' := of_decide_eq_true hs1
      have e2 : s2 = '-' := of_decide_eq_true hs2
      subst e1; subst e2
      exact ⟨d1, d2, d3, h1, by simpa using hl1, h2, by simpa using hl2,
        h3, by simpa using hl3, hl⟩

theorem isoExact_canon {y m d : List Char}
    (hy : ∀ c ∈ y, c.isDigit = true) (hyl : y.length = 4)
    (hm : ∀ c ∈ m, c.isDigit = true) (hml : m.length = 2)
    (hd : ∀ c ∈ d, c.isDigit = true) (hdl : d.length = 2) :
    isoExact (y ++ '-' :: m ++ '-' :: d) = true := by
  unfold isoExact
  rw [dateGroups_canonical hy hm hd (by decide) (by decide),
    if_pos ⟨by decide, by decide, by simp [hyl], by simp [hml], by simp [hdl]⟩]
  rfl

theorem toISODate_of_isoExact {l : List Char} (hne : l ≠ [])
    (hnws : ∀ c ∈ l, c.isWhitespace = false) (hl : isoExact l = true) :
    toISODate ⟨l⟩ = some ⟨l⟩ := by
  unfold toISODate
  show toISODateCore (trimChars l) = _
  rw [trimChars_of_noWs hnws]
  unfold toISODateCore
  rw [if_neg hne, hl]
  rfl

theorem pad2_digits {m : List Char} (hm : ∀ c ∈ m, c.isDigit = true) :
    ∀ c ∈ pad2 m, c.isDigit = true := by
  intro c hc
  unfold pad2 at hc
  split_ifs at hc
  · rcases List.mem_cons.1 hc with rfl | hc
    · decide
    · exact hm c hc
  · exact hm c hc

theorem pad2_length {m : List Char} (h1 : 1 ≤ m.length) (h2 : m.length ≤ 2) :
    (pad2 m).length = 2 := by
  unfold pad2
  split_ifs with h
  · simp [h]
  · omega

theorem fixYear_digits {y : List Char} (hy : ∀ c ∈ y, c.isDigit = true) :
    ∀ c ∈ fixYear y, c.isDigit = true := by
  intro c hc
  unfold fixYear at hc
  split_ifs at hc
  · rcases List.mem_cons.1 hc with rfl | hc
    · decide
    · rcases List.mem_cons.1 hc with rfl | hc
      · decide
      · exact hy c hc
  · exact hy c hc

theorem toISODate_us_short {y m d : List Char}
    (hy : ∀ c ∈ y, c.isDigit = true) (hyl : y.length = 3)
    (hm : ∀ c ∈ m, c.isDigit = true) (hml : m.length = 2)
    (hd : ∀ c ∈ d, c.isDigit = true) (hdl : d.length = 2) :
    toISODate ⟨y ++ '-' :: m ++ '-' :: d⟩ = some ⟨y ++ '-' :: m ++ '-' :: d⟩ := by
  unfold toISODate
  show toISODateCore (trimChars (y ++ '-' :: m ++ '-' :: d)) = _
  rw [trimChars_of_noWs (noWs_dateList hy hm hd)]
  unfold toISODateCore
  rw [if_neg (by simp)]
  have hiso : isoExact (y ++ '-' :: m ++ '-' :: d) = false := by
    unfold isoExact
    rw [dateGroups_canonical hy hm hd (by decide) (by decide),
      if_neg (by rintro ⟨-, -, hc, -⟩; simp [hyl] at hc)]
    rfl
  have hdot : dotMatch (y ++ '-' :: m ++ '-' :: d) = none := by
    unfold dotMatch
    rw [dateGroups_canonical hy hm hd (by decide) (by decide),
      if_neg (by rintro ⟨hc, -⟩; simp at hc)]
  have hus : usMatch (y ++ '-' :: m ++ '-' :: d) = none := by
    unfold usMatch
    rw [dateGroups_canonical hy hm hd (by decide) (by decide),
      if_neg (by rintro ⟨hc, -⟩; simp at hc)]
  rw [hiso, hdot, hus]
  simp

theorem toISODate_idem {s t : String} (h : toISODate s = some t) :
    toISODate t = some t := by
  unfold toISODate at h
  unfold toISODateCore at h
  split_ifs at h with hne hiso
  · -- already-ISO input passes through and stays a fixed point
    simp only [Option.some.injEq] at h
    obtain ⟨y, m, d, hy, hyl, hm, hml, hd, hdl, hl⟩ := isoExact_inv hiso
    rw [← h]
    exact toISODate_of_isoExact hne (by rw [hl]; exact noWs_dateList hy hm hd) hiso
  · cases hdot : dotMatch (trimChars s.data) with
    | some dmy =>
        obtain ⟨d, m, y⟩ := dmy
        rw [hdot] at h
        simp only [Option.some.injEq] at h
        obtain ⟨hd, hdl, hm, hml, hy, hyl, -⟩ := dateGroups_eq_some hdot
        rw [← h]
        exact toISODate_of_isoExact (by simp) (noWs_dateList hy hm hd)
          (isoExact_canon hy (by simpa using hyl) hm (by simpa using hml)
            hd (by simpa using hdl))
    | none =>
        rw [hdot] at h
        try simp only [] at h
        cases hus : usMatch (trimChars s.data) with
        | some mdy =>
            obtain ⟨m, d, y⟩ := mdy
            rw [hus] at h
            simp only [Option.some.injEq] at h
            obtain ⟨hm, hml, hd, hdl, hy, hyl, -⟩ := dateGroups_eq_some hus
            have hmb := of_decide_eq_true hml
            have hdb := of_decide_eq_true hdl
            have hyb := of_decide_eq_true hyl
            have hpm := pad2_digits hm
            have hpd := pad2_digits hd
            have hpml := pad2_length hmb.1 hmb.2
            have hpdl := pad2_length hdb.1 hdb.2
            have hfy := fixYear_digits hy
            rw [← h]
            by_cases hy3 : y.length = 3
            · have hfe : fixYear y = y := by
                unfold fixYear
                rw [if_neg (by omega)]
              rw [hfe] at hfy ⊢
              exact toISODate_us_short hy hy3 hpm hpml hpd hpdl
            · have hfl : (fixYear y).length = 4 := by
                unfold fixYear
                split_ifs with h2
                · simp [h2]
                · omega
              exact toISODate_of_isoExact (by simp) (noWs_dateList hfy hpm hpd)
                (isoExact_canon hfy hfl hpm hpml hpd hpdl)
        | none =>
            rw [hus] at h
            try simp only [] at h
            simp only [Option.some.injEq] at h
            rw [← h]
            unfold toISODate
            show toISODateCore (trimChars (trimChars s.data)) = _
            rw [trimChars_idem]
            unfold toISODateCore
            have hisoF : isoExact (trimChars s.data) = false := by
              simpa using hiso
            rw [if_neg hne, hisoF, hdot, hus]
            simp

/-! ## Lemmas: synthetic headers and the fallback chain -/

theorem data_colName (k : ℕ) : (colName k).data = 'C' :: 'o' :: 'l' :: '_' :: natToChars k :=
  rfl

theorem baseOf_colName (k : ℕ) : baseOf (colName k) = colName k := by
  have hno : ∀ c ∈ 'C' :: 'o' :: 'l' :: '_' :: natToChars k, c.isWhitespace = false := by
    intro c hc
    rcases List.mem_cons.1 hc with rfl | hc
    · decide
    rcases List.mem_cons.1 hc with rfl | hc
    · decide
    rcases List.mem_cons.1 hc with rfl | hc
    · decide
    rcases List.mem_cons.1 hc with rfl | hc
    · decide
    exact isDigit_not_ws (mem_natToChars_isDigit hc)
  have htrim : normHdr (colName k) = colName k := by
    unfold normHdr jsTrim
    rw [data_colName, trimChars_of_noWs hno]
    rfl
  unfold baseOf
  rw [htrim, if_neg (mk_ne_empty (by simp [data_colName]))]

theorem colName_injective {j k : ℕ} (h : colName j = colName k) : j = k := by
  have hd := congrArg String.data h
  rw [data_colName, data_colName] at hd
  simp only [List.cons.injEq, true_and] at hd
  exact natToChars_injective hd

theorem dedupeHeaders_synthetic (rows : List (List Cell)) :
    dedupeHeaders (syntheticHeaders rows) = syntheticHeaders rows := by
  have hmap : (syntheticHeaders rows).map baseOf = syntheticHeaders rows := by
    unfold syntheticHeaders
    rw [List.map_map]
    exact List.map_congr_left (fun i _ => baseOf_colName (i + 1))
  have hnd : ((syntheticHeaders rows).map baseOf).Nodup := by
    rw [hmap]
    unfold syntheticHeaders
    refine List.Nodup.map ?_ (List.nodup_range _)
    intro a b hab
    have := colName_injective hab
    omega
  unfold dedupeHeaders
  rw [dedupeHeadersAux_bare _ _ (fun h _ => rfl) hnd, hmap]

/-! ## Lemmas: row alignment -/

theorem alignRow_of_le {row : List Cell} {len : ℕ} (h : len ≤ row.length) :
    alignRow row len = row.take len := by
  rcases Nat.lt_or_ge len row.length with hlt | hge
  · simp only [alignRow, if_neg (by omega : ¬ row.length < len)]
    rw [if_pos hlt]
  · have he : len = row.length := by omega
    simp [alignRow, he]

theorem alignRow_of_ge {row : List Cell} {len : ℕ} (h : row.length ≤ len) :
    alignRow row len = row ++ List.replicate (len - row.length) none := by
  rcases Nat.lt_or_ge row.length len with hlt | hge
  · simp only [alignRow, if_pos hlt]
    rw [if_neg (by simp only [List.length_append, List.length_replicate]; omega)]
  · have he : row.length = len := by omega
    simp [alignRow, he]

theorem alignRow_length (row : List Cell) (len : ℕ) : (alignRow row len).length = len := by
  rcases Nat.lt_or_ge len row.length with hlt | hge
  · rw [alignRow_of_le (by omega)]
    simp only [List.length_take]
    omega
  · rw [alignRow_of_ge (by omega)]
    simp only [List.length_append, List.length_replicate]
    omega

theorem sliceAndPad_eq_alignRow (w : ℕ) (r : List Cell) :
    sliceAndPad w r = alignRow r w := by
  unfold sliceAndPad
  rcases Nat.lt_or_ge r.length w with hlt | hge
  · rw [alignRow_of_ge (by omega), List.take_of_length_le (by omega)]
  · rw [alignRow_of_le (by omega)]
    have h0 : w - (r.take w).length = 0 := by
      simp only [List.length_take]
      omega
    rw [h0]
    simp

/-! ## Lemmas: whitespace stripping in the number normalizer -/

theorem stripWs_idem (l : List Char) : stripWs (stripWs l) = stripWs l := by
  unfold stripWs
  rw [List.filter_filter]
  refine List.filter_congr ?_
  intro c _
  by_cases h : c.isWhitespace <;> simp [h]

/-! ## Claim theorems -/

/-- Claim C1, counterexample: a section whose first non-empty data row `["x"]`
fails the shape probe makes `pickAt2Schema` select the NO_D column list, not
the higher-field-count WITH_D list the claim names. -/
theorem C1_counterexample :
    [[some "x"]].find? rowNonEmpty = some [some "x"] ∧
    probeAt2 [some "x"] = false ∧
    pickAt2Schema [[some "x"]] = AT2_COLS_NO_D ∧
    AT2_COLS_NO_D ≠ AT2_COLS_WITH_D := by
  refine ⟨by decide, by decide, by decide, by decide⟩

/-- Claim C1 (amended): the schema resolver always completes, selecting one of
the two variants; when the probe on the first non-empty data row fails it
selects the NO_D (lower-field-count) variant, when the probe succeeds or the
section has no non-empty row it selects the WITH_D variant. -/
theorem C1_amended_schema_choice (sec2 : List (List Cell)) :
    (pickAt2Schema sec2 = AT2_COLS_WITH_D ∨ pickAt2Schema sec2 = AT2_COLS_NO_D) ∧
    (sec2.find? rowNonEmpty = none → pickAt2Schema sec2 = AT2_COLS_WITH_D) ∧
    (∀ first, sec2.find? rowNonEmpty = some first →
      (probeAt2 first = true → pickAt2Schema sec2 = AT2_COLS_WITH_D) ∧
      (probeAt2 first = false → pickAt2Schema sec2 = AT2_COLS_NO_D)) := by
  refine ⟨?_, ?_, ?_⟩
  · unfold pickAt2Schema
    cases sec2.find? rowNonEmpty with
    | none => exact Or.inl rfl
    | some first =>
        by_cases hp : probeAt2 first = true
        · exact Or.inl (by simp [hp])
        · exact Or.inr (by simp [hp])
  · intro h
    unfold pickAt2Schema
    rw [h]
  · intro first h
    unfold pickAt2Schema
    rw [h]
    exact ⟨fun hp => by simp [hp], fun hp => by simp [hp]⟩

/-- Claim C1, witness: the amended theorem evaluated on an empty section and on
the probe-failing section. -/
theorem C1_schema_choice_witness :
    pickAt2Schema ([] : List (List Cell)) = AT2_COLS_WITH_D :=
  (C1_amended_schema_choice []).2.1 (by decide)

/-- Claim C2, counterexample: `num` deletes the internal space of `"610 00"`
(yielding 61000, not the claimed 610.00), and on `"1,234.56"` it treats the
comma as the decimal point even though the rightmost separator is the dot
(yielding 1.23456, not the claimed 1234.56). -/
theorem C2_counterexample :
    num "610 00" = some 61000 ∧ (61000 : ℚ) ≠ (610 : ℚ) ∧
    num "1,234.56" = some (123456 / 100000 : ℚ) ∧
    (123456 / 100000 : ℚ) ≠ (123456 / 100 : ℚ) := by
  have h1 : numParts "610 00" = some (false, 61000, 1) := by decide
  have h2 : numParts "1,234.56" = some (false, 123456, 100000) := by decide
  refine ⟨?_, by norm_num, ?_, by norm_num⟩
  · rw [num, h1]
    simp only [Option.map_some']
    norm_num [jsVal]
  · rw [num, h2]
    simp only [Option.map_some']
    norm_num [jsVal]

/-- Claim C2 (amended): `num` strips all whitespace (internal spaces are
deleted, so `num "610 00" = 61000`); after the thousands-dot pass, when both
`.` and `,` remain every dot is removed and the first comma becomes the
decimal point (so the comma, not the rightmost separator, is decimal:
`num "1,234.56" = 1.23456`); a comma alone is the decimal point
(`num "0,04" = 0.04`); `num "14.000,00" = 14000`; a non-numeric cleanup
result is null (`num "1.2.3" = none`). -/
theorem C2_amended_num_normalizer :
    (∀ s : String, num s = num ⟨stripWs s.data⟩) ∧
    num "14.000,00" = some 14000 ∧
    num "0,04" = some (4 / 100 : ℚ) ∧
    num "610 00" = some 61000 ∧
    num "1,234.56" = some (123456 / 100000 : ℚ) ∧
    num "1.2.3" = none := by
  refine ⟨?_, ?_, ?_, ?_, ?_, ?_⟩
  · intro s
    have hc : numCore (stripWs s.data) = numCore s.data := by
      unfold numCore
      rw [stripWs_idem]
    unfold num numParts
    show (jsNumberParse (numCore s.data)).map jsVal
        = (jsNumberParse (numCore (stripWs s.data))).map jsVal
    rw [hc]
  · have h : numParts "14.000,00" = some (false, 1400000, 100) := by decide
    rw [num, h]
    simp only [Option.map_some']
    norm_num [jsVal]
  · have h : numParts "0,04" = some (false, 4, 100) := by decide
    rw [num, h]
    simp only [Option.map_some']
    norm_num [jsVal]
  · have h : numParts "610 00" = some (false, 61000, 1) := by decide
    rw [num, h]
    simp only [Option.map_some']
    norm_num [jsVal]
  · have h : numParts "1,234.56" = some (false, 123456, 100000) := by decide
    rw [num, h]
    simp only [Option.map_some']
    norm_num [jsVal]
  · have h : numParts "1.2.3" = none := by decide
    rw [num, h]
    rfl

/-- Claim C3, counterexample: mapping a full row under the built-in fallback
header list (which repeats names) produces a Record with 12 keys, not the
24-name schema list: repeated names collapse in a JS object. -/
theorem C3_counterexample :
    (mapRowsToObjects [List.replicate 24 (some "v")] BUILTIN_FALLBACK).map recKeys
      = [["karves nr", "kaklo nr", "statusas", "grupe", "pieno vidurkis",
          "melzimo data", "melzimo laikas", "pieno kiekis",
          "dalyvauja pieno gamyboje", "apsiversiavo", "laktacijos dienos",
          "apseklinimo diena"]] ∧
    ["karves nr", "kaklo nr", "statusas", "grupe", "pieno vidurkis",
     "melzimo data", "melzimo laikas", "pieno kiekis",
     "dalyvauja pieno gamyboje", "apsiversiavo", "laktacijos dienos",
     "apseklinimo diena"] ≠ BUILTIN_FALLBACK := by
  refine ⟨by decide, by decide⟩

/-- Claim C3 (amended): every Record produced from one schema has the same
key list — the schema's name list with later duplicates removed, in
first-occurrence order — and when the schema's names are duplicate-free this
key list is exactly the schema's field-name list, in order. -/
theorem C3_amended_record_keys (cols : List String) (rows : List (List Cell)) :
    (∀ o ∈ mapRowsToObjects rows cols, recKeys o = newKeys [] cols) ∧
    (cols.Nodup → ∀ o ∈ mapRowsToObjects rows cols, recKeys o = cols) := by
  have hkey : ∀ o ∈ mapRowsToObjects rows cols, recKeys o = newKeys [] cols := by
    intro o ho
    unfold mapRowsToObjects at ho
    obtain ⟨r, -, rfl⟩ := List.mem_map.1 ho
    exact recKeys_buildObj (le_of_eq (length_sliceAndPad cols.length r).symm)
  refine ⟨hkey, fun hnd o ho => ?_⟩
  rw [hkey o ho, newKeys_of_nodup cols [] (by simp) hnd]

/-- Claim C3, witness: the amended theorem evaluated on a duplicate-free
two-column schema. -/
theorem C3_record_keys_witness :
    recKeys (buildObj ["a", "b"] (sliceAndPad (List.length ["a", "b"]) [some "1"]))
      = ["a", "b"] :=
  (C3_amended_record_keys ["a", "b"] [[some "1"]]).2 (by decide)
    (buildObj ["a", "b"] (sliceAndPad (List.length ["a", "b"]) [some "1"])) (by decide)

/-- Claim C4, counterexample: on the header list `["a", "a_2", "a"]` the
disambiguation emits `["a", "a_2", "a_2"]` — the suffixed repeat collides
with the literal input name `"a_2"`, so the output names are not unique for
arbitrary inputs. -/
theorem C4_counterexample :
    dedupeHeaders ["a", "a_2", "a"] = ["a", "a_2", "a_2"] ∧
    ¬ (dedupeHeaders ["a", "a_2", "a"]).Nodup := by
  refine ⟨by decide, by decide⟩

/-- Claim C4 (amended): the disambiguation gives the first occurrence of each
(normalized, empty-to-Col) base the bare name and the k-th occurrence the
name `base_k`; the resulting names are all distinct provided no input base
contains an underscore (underscored inputs such as `"a_2"` can collide with
generated suffixes). -/
theorem C4_amended_dedupe_headers (hs : List String) :
    dedupeHeaders hs = dedupePos [] (hs.map baseOf) ∧
    ((∀ h ∈ hs, '_' ∉ (baseOf h).data) → (dedupeHeaders hs).Nodup) :=
  ⟨dedupeHeaders_eq_dedupePos hs, fun hfree => nodup_dedupeHeaders hfree⟩

/-- Claim C4, witness: the amended theorem evaluated on an underscore-free
header list with a repeat. -/
theorem C4_dedupe_headers_witness :
    (dedupeHeaders ["a", "b", "a"]).Nodup :=
  (C4_amended_dedupe_headers ["a", "b", "a"]).2 (by decide)

/-- Claim C5: with no detected header, field names come from a strict priority
chain stopping at the first available source — non-empty persisted snapshot,
then non-empty supplied fallback, then non-empty built-in default, then
synthetic names `Col_1..Col_N` sized to the longest row — deterministically
and totally (each branch yields a definite schema). -/
theorem C5_fallback_chain (store : Option (List String)) (env builtin : List String)
    (rows : List (List Cell)) :
    (∀ l, store = some l → l ≠ [] →
      resolveHeaders store env builtin rows = dedupeHeaders (l.map normHdr)) ∧
    ((store = none ∨ store = some []) → env ≠ [] →
      resolveHeaders store env builtin rows = dedupeHeaders (env.map normHdr)) ∧
    ((store = none ∨ store = some []) → env = [] → builtin ≠ [] →
      resolveHeaders store env builtin rows = dedupeHeaders (dedupeHeaders builtin)) ∧
    ((store = none ∨ store = some []) → env = [] → builtin = [] →
      resolveHeaders store env builtin rows = syntheticHeaders rows ∧
      syntheticHeaders rows
        = (List.range (maxRowLen rows)).map (fun i => colName (i + 1))) := by
  refine ⟨?_, ?_, ?_, ?_⟩
  · rintro l rfl hl
    simp [resolveHeaders, loadSnap, hl]
  · rintro (rfl | rfl) henv <;> simp [resolveHeaders, loadSnap, henv]
  · rintro (rfl | rfl) rfl hb <;> simp [resolveHeaders, loadSnap, hb]
  · rintro (rfl | rfl) rfl rfl <;>
      exact ⟨by simp [resolveHeaders, loadSnap, dedupeHeaders_synthetic], rfl⟩

/-- Claim C5, witness: a non-empty snapshot wins over a supplied fallback and
the built-in default; with no snapshot the supplied fallback wins. -/
theorem C5_fallback_chain_witness :
    resolveHeaders (some ["x", "y"]) ["p", "q"] BUILTIN_FALLBACK [] = ["x", "y"] ∧
    resolveHeaders none ["p", "q"] BUILTIN_FALLBACK [] = ["p", "q"] := by
  constructor
  · rw [(C5_fallback_chain (some ["x", "y"]) ["p", "q"] BUILTIN_FALLBACK []).1
      ["x", "y"] rfl (by decide)]
    decide
  · rw [(C5_fallback_chain none ["p", "q"] BUILTIN_FALLBACK []).2.1
      (Or.inl rfl) (by decide)]
    decide

/-- Claim C6, counterexample: the header row `[" "]` is detected as a header
(a whitespace cell counts as non-digit text) yet the snapshot is left
unchanged because every normalized name is empty; and a detected duplicate
header is saved verbatim, not disambiguated. -/
theorem C6_counterexample :
    detectHasHeader [some " "] = true ∧
    snapStep (some ["old"]) [[some " "]] = some ["old"] ∧
    (some ["old"] : Option (List String)) ≠ some [""] ∧
    detectHasHeader [some "a", some "a"] = true ∧
    snapStep none [[some "a", some "a"]] = some ["a", "a"] ∧
    ["a", "a"] ≠ dedupeHeaders ["a", "a"] := by
  refine ⟨by decide, by decide, by decide, by decide, by decide, by decide⟩

/-- Claim C6 (amended): a call overwrites the persisted snapshot with the
trimmed header names exactly when a header is detected and at least one
trimmed name is non-empty; when no header is detected, or every trimmed name
is empty, or the grid is empty, the store is unchanged. -/
theorem C6_amended_snapshot_effect (store : Option (List String))
    (r : List Cell) (rest : List (List Cell)) :
    (detectHasHeader r = false → snapStep store (r :: rest) = store) ∧
    (detectHasHeader r = true →
      ((r.map (fun c => normHdr (cellStr c))).any (fun h => h ≠ "") = true →
        snapStep store (r :: rest) = some (r.map (fun c => normHdr (cellStr c)))) ∧
      ((r.map (fun c => normHdr (cellStr c))).any (fun h => h ≠ "") = false →
        snapStep store (r :: rest) = store)) ∧
    snapStep store [] = store := by
  refine ⟨fun hdet => ?_, fun hdet => ⟨fun hany => ?_, fun hany => ?_⟩, rfl⟩
  · simp [snapStep, hdet]
  · simp only [snapStep, hdet, if_true]
    rw [if_pos hany]
  · simp only [snapStep, hdet, if_true]
    rw [if_neg (by rw [hany]; simp)]

/-- Claim C6, witness: the amended theorem evaluated on a detected header with
non-empty names overwriting a prior snapshot. -/
theorem C6_snapshot_effect_witness :
    snapStep (some ["old"]) [[some "h1"]] = some ["h1"] := by
  rw [((C6_amended_snapshot_effect (some ["old"]) [some "h1"] []).2.1
    (by decide)).1 (by decide)]
  decide

/-- Claim C7, counterexample: a record whose identity value is the empty
string (not null) is dropped by the deduplication filter, though the claim
only allows removing null-identity records and later duplicates. -/
theorem C7_counterexample :
    (rowWithTag (some "")).tag_no ≠ none ∧
    dedupByTag [rowWithTag (some "")] = [] ∧
    ([] : List AnimalRow) ≠ [rowWithTag (some "")] := by
  refine ⟨by decide, by decide, by decide⟩

/-- Claim C7 (amended): deduplication keeps, in encounter order, the first
record of each identity value, removing later records with an already-seen
value, and always drops a record whose identity is null or empty (falsy);
in particular A,B,A collapses to A,B. -/
theorem C7_amended_dedup (rs : List AnimalRow) :
    dedupByTag rs = specDedup rs ∧
    dedupByTag [rowWithTag (some "A"), rowWithTag (some "B"), rowWithTag (some "A")]
      = [rowWithTag (some "A"), rowWithTag (some "B")] :=
  ⟨dedupByTag_eq_specDedup rs, by decide⟩

/-- Claim C8: both date normalizers are idempotent on success — re-normalizing
any successful output (in particular an already-canonical ISO date) returns
it unchanged. -/
theorem C8_date_idempotent :
    (∀ s t : String, toISO s = some t → toISO t = some t) ∧
    (∀ s t : String, toISODate s = some t → toISODate t = some t) :=
  ⟨fun _ _ h => toISO_idem h, fun _ _ h => toISODate_idem h⟩

/-- Claim C8, witness: the idempotence theorem evaluated on a DD-MM-YYYY input
for `toISO` and on a dd.MM.yyyy input for `toISODate`. -/
theorem C8_date_idempotent_witness :
    toISO "2018-05-21" = some "2018-05-21" ∧
    toISODate "2020-09-05" = some "2020-09-05" :=
  ⟨C8_date_idempotent.1 "21-05-2018" "2018-05-21" (by decide),
   C8_date_idempotent.2 "05.09.2020" "2020-09-05" (by decide)⟩

/-- Claim C9: when any of the three section markers is not found in the row
stream, the handler aborts with the missing-marker error carrying the three
lookup results (which markers were and were not found); no section slicing,
schema resolution or row mapping result is produced — the outcome is the
error constructor, not the `ok` constructor. -/
theorem C9_missing_marker (rows : List (List Cell)) (hne : rows ≠ [])
    (hmiss : findMarkerIndex rows "1 ATASKAITA" = none ∨
      findMarkerIndex rows "2 ATASKAITA" = none ∨
      findMarkerIndex rows "3 ATASKAITA" = none) :
    processRows rows = ExtractResult.missingMarkers
      (findMarkerIndex rows "1 ATASKAITA") (findMarkerIndex rows "2 ATASKAITA")
      (findMarkerIndex rows "3 ATASKAITA") := by
  simp only [processRows, if_neg hne]
  cases h1 : findMarkerIndex rows "1 ATASKAITA" with
  | none => rfl
  | some a =>
      cases h2 : findMarkerIndex rows "2 ATASKAITA" with
      | none => rfl
      | some b =>
          cases h3 : findMarkerIndex rows "3 ATASKAITA" with
          | none => rfl
          | some c =>
              rcases hmiss with hc | hc | hc <;> simp_all

/-- Claim C9, witness: a grid containing only the first marker yields the
missing-marker error reporting index 0 for marker 1 and not-found for the
other two. -/
theorem C9_missing_marker_witness :
    processRows [[some "1 ATASKAITA"]]
      = ExtractResult.missingMarkers (some 0) none none := by
  rw [C9_missing_marker [[some "1 ATASKAITA"]] (by decide)
    (Or.inr (Or.inl (by decide)))]
  decide

/-- Claim C10: rows are aligned to the resolved schema before mapping — the
aligned row always has the schema's length, a longer row is truncated, a
shorter row is padded at the end with nulls — and `mapRowsToObjects` maps
every row of a ragged grid through exactly this alignment, so mapping is
total. -/
theorem C10_row_alignment :
    (∀ (row : List Cell) (len : ℕ),
      (alignRow row len).length = len ∧
      (len ≤ row.length → alignRow row len = row.take len) ∧
      (row.length ≤ len →
        alignRow row len = row ++ List.replicate (len - row.length) none)) ∧
    (∀ (rows : List (List Cell)) (cols : List String),
      mapRowsToObjects rows cols
        = rows.map (fun r => buildObj cols (alignRow r cols.length))) := by
  refine ⟨fun row len => ⟨alignRow_length row len, fun h => alignRow_of_le h,
    fun h => alignRow_of_ge h⟩, ?_⟩
  intro rows cols
  unfold mapRowsToObjects
  exact List.map_congr_left (fun r _ => by rw [sliceAndPad_eq_alignRow])

/-- Claim C10, witness: the alignment theorem evaluated on a longer and a
shorter row. -/
theorem C10_row_alignment_witness :
    alignRow [some "a", some "b", some "c"] 2 = [some "a", some "b"] ∧
    alignRow [some "a"] 3 = [some "a", none, none] := by
  constructor
  · rw [(C10_row_alignment.1 [some "a", some "b", some "c"] 2).2.1 (by decide)]
    decide
  · rw [(C10_row_alignment.1 [some "a"] 3).2.2 (by decide)]
    decide
